import Mathlib

/-!
Shallow embedding of `AIGym_Modified` (src/AIGym_Modified.py): a pose-based
exercise tracker that classifies each tracked person as doing squats or
push-ups and counts repetitions with an up/down hysteresis state machine.

Coordinates, angles and thresholds are modelled as rationals; the per-person
parallel lists of the Python class are Lean lists; Python's in-place indexed
assignment `xs[i] = v` is `List.set`, and the read `xs[i]` is `List.getD`
(all uses in the source are in range after `initialize_person`).  The
external pose model and the annotator's `estimate_pose_angle` are outside
the repository; the angle estimator is a parameter `est` of the per-frame
processing functions.
-/

namespace AIGym

/-- One skeletal keypoint: x and y coordinates plus a confidence value
(one row of the `(17, 3)` keypoint array). -/
structure Kpt where
  x : ℚ
  y : ℚ
  conf : ℚ
deriving DecidableEq

/-- State of `AIGym_Modified`: the five per-person parallel lists and the two
angle thresholds (`__init__`, lines 36-44). -/
structure Gym where
  squat_count : List ℕ
  pushup_count : List ℕ
  angle : List ℚ
  stage : List String
  exercise : List (Option String)
  up_angle : ℚ
  down_angle : ℚ
deriving DecidableEq

/-- Construction (`__init__`): empty lists; thresholds come from the
configuration with defaults `up_angle = 160`, `down_angle = 90`. -/
def mkGym (up_angle : ℚ := 160) (down_angle : ℚ := 90) : Gym :=
  { squat_count := []
    pushup_count := []
    angle := []
    stage := []
    exercise := []
    up_angle := up_angle
    down_angle := down_angle }

/-- `detect_exercise` (lines 46-68): average the shoulder and hip midpoints
and compare the horizontal and vertical distances; any failing keypoint
access (indices 5, 6, 11, 12) is caught and yields `none`. -/
def detect_exercise (kpts : List Kpt) : Option String :=
  match kpts[5]?, kpts[6]?, kpts[11]?, kpts[12]? with
  | some k5, some k6, some k11, some k12 =>
    let shoulder_y := (k5.y + k6.y) / 2
    let hip_y := (k11.y + k12.y) / 2
    let delta_y := |shoulder_y - hip_y|
    let delta_x := |(k5.x + k6.x) / 2 - (k11.x + k12.x) / 2|
    some (if delta_x < delta_y then "squat" else "pushup")
  | _, _, _, _ => none

/-- `get_kpts_indices` (lines 70-82): `[12, 14, 16]` when the argument equals
"squat", otherwise `[6, 8, 10]` (in the source the argument may be any
value, including `None`; the comparison is Python `==`). -/
def get_kpts_indices (exercise : Option String) : List ℕ :=
  if exercise = some "squat" then [12, 14, 16] else [6, 8, 10]

/-- `initialize_person` (lines 84-97): while `squat_count` is not long enough
to hold `person_id`, append one default entry to each of the five lists. -/
def initialize_person (g : Gym) (person_id : ℕ) : Gym :=
  if h : g.squat_count.length ≤ person_id then
    initialize_person
      { g with
        squat_count := g.squat_count ++ [0]
        pushup_count := g.pushup_count ++ [0]
        angle := g.angle ++ [0]
        stage := g.stage ++ ["-"]
        exercise := g.exercise ++ [none] }
      person_id
  else g
termination_by person_id + 1 - g.squat_count.length
decreasing_by
  simp only [List.length_append, List.length_cons, List.length_nil]
  omega

/-- `update_stage_and_count` (lines 99-117): below `down_angle` count the
repetition on the up-to-down edge and enter stage "down"; above `up_angle`
enter stage "up"; inside the hysteresis band do nothing. -/
def update_stage_and_count (g : Gym) (person_id : ℕ) (exercise : String) (angle : ℚ) : Gym :=
  if angle < g.down_angle then
    let g1 :=
      if g.stage.getD person_id "-" = "up" then
        if exercise = "squat" then
          { g with squat_count :=
              g.squat_count.set person_id (g.squat_count.getD person_id 0 + 1) }
        else if exercise = "pushup" then
          { g with pushup_count :=
              g.pushup_count.set person_id (g.pushup_count.getD person_id 0 + 1) }
        else g
      else g
    { g1 with stage := g1.stage.set person_id "down" }
  else if angle > g.up_angle then
    { g with stage := g.stage.set person_id "up" }
  else g

/-- Default keypoint used when reading an angle landmark (the source indexes
the fixed-size keypoint tensor directly). -/
def kptZero : Kpt := { x := 0, y := 0, conf := 0 }

/-- The angle handed to the state machine (line 181): the external estimator
applied to the three landmarks selected by `get_kpts_indices` for the
classified exercise. -/
def angle_of (est : Kpt → Kpt → Kpt → ℚ) (kpts : List Kpt) (ex : String) : ℚ :=
  est (kpts.getD ((get_kpts_indices (some ex)).getD 0 0) kptZero)
      (kpts.getD ((get_kpts_indices (some ex)).getD 1 0) kptZero)
      (kpts.getD ((get_kpts_indices (some ex)).getD 2 0) kptZero)

/-- The body of the per-person iteration of `process` (lines 160-195):
initialize storage, classify, and on success record the exercise, compute
and record the angle via the external estimator `est`, and update the
stage/count state machine.  Classification failure skips the person. -/
def process_person (est : Kpt → Kpt → Kpt → ℚ) (g : Gym) (entry : ℕ × List Kpt) : Gym :=
  let track_id := entry.1
  let kpts := entry.2
  let g1 := initialize_person g track_id
  match detect_exercise kpts with
  | none => g1
  | some ex =>
    let g2 := { g1 with exercise := g1.exercise.set track_id (some ex) }
    let a := angle_of est kpts ex
    let g3 := { g2 with angle := g2.angle.set track_id a }
    update_stage_and_count g3 track_id ex a

/-- The per-frame snapshot assembled at the end of `process` (lines 202-208):
the two count lists, the stage and angle lists, and `total_tracks`, the
length of the current frame's track-id list. -/
structure SolutionResults where
  workout_count_squat : List ℕ
  workout_count_pushup : List ℕ
  workout_stage : List String
  workout_angle : List ℚ
  total_tracks : ℕ
deriving DecidableEq

/-- `process` (lines 142-208) restricted to its state effect and returned
data: fold the per-person step over the frame's `(track_id, keypoints)`
entries and assemble the snapshot.  A frame with no tracked boxes is the
empty list. -/
def process (est : Kpt → Kpt → Kpt → ℚ) (g : Gym) (frame : List (ℕ × List Kpt)) :
    Gym × SolutionResults :=
  let g1 := frame.foldl (process_person est) g
  (g1,
    { workout_count_squat := g1.squat_count
      workout_count_pushup := g1.pushup_count
      workout_stage := g1.stage
      workout_angle := g1.angle
      total_tracks := frame.length })

/-- Iterating `update_stage_and_count` over a list of
`(person_id, exercise, angle)` updates. -/
def run_updates (g : Gym) (steps : List (ℕ × String × ℚ)) : Gym :=
  steps.foldl (fun g s => update_stage_and_count g s.1 s.2.1 s.2.2) g

/-- Iterating `process` over a sequence of frames, keeping the state. -/
def run_frames (est : Kpt → Kpt → Kpt → ℚ) (g : Gym)
    (frames : List (List (ℕ × List Kpt))) : Gym :=
  frames.foldl (fun g f => (process est g f).1) g

/-- A constant angle estimator, standing in for the external annotator in
concrete evaluations. -/
def est0 : Kpt → Kpt → Kpt → ℚ := fun _ _ _ => 0

/-- Closed form of `update_stage_and_count`: each field as one conditional
expression. -/
theorem update_eq (g : Gym) (pid : ℕ) (ex : String) (a : ℚ) :
    update_stage_and_count g pid ex a =
      { g with
        squat_count :=
          if a < g.down_angle ∧ g.stage.getD pid "-" = "up" ∧ ex = "squat" then
            g.squat_count.set pid (g.squat_count.getD pid 0 + 1)
          else g.squat_count
        pushup_count :=
          if a < g.down_angle ∧ g.stage.getD pid "-" = "up" ∧ ex = "pushup" then
            g.pushup_count.set pid (g.pushup_count.getD pid 0 + 1)
          else g.pushup_count
        stage :=
          if a < g.down_angle then g.stage.set pid "down"
          else if a > g.up_angle then g.stage.set pid "up"
          else g.stage } := by
  unfold update_stage_and_count
  by_cases h1 : a < g.down_angle
  · by_cases h2 : g.stage.getD pid "-" = "up"
    · by_cases h3 : ex = "squat"
      · subst h3
        simp_all
      · by_cases h4 : ex = "pushup"
        · subst h4
          simp_all
        · simp_all
    · simp_all
  · rw [if_neg h1]
    by_cases h5 : a > g.up_angle
    · rw [if_pos h5]
      simp [h1, h5]
    · rw [if_neg h5]
      simp [h1, h5]

/-- Reading the index just written (in range). -/
theorem getD_set_self {α : Type _} (l : List α) (i : ℕ) (v d : α) (h : i < l.length) :
    (l.set i v).getD i d = v := by
  simp [List.getD_eq_getElem?_getD, List.getElem?_set_self h]

/-- Writing one index leaves every other index's `getD` value unchanged. -/
theorem getD_set_ne {α : Type _} (l : List α) (i j : ℕ) (v d : α) (h : i ≠ j) :
    (l.set i v).getD j d = l.getD j d := by
  simp [List.getD_eq_getElem?_getD, List.getElem?_set_ne h]

/-- Appending copies of the default value does not change any `getD` value. -/
theorem getD_append_pad {α : Type _} (l : List α) (k i : ℕ) (d : α) :
    (l ++ List.replicate k d).getD i d = l.getD i d := by
  by_cases h : i < l.length
  · exact List.getD_append _ _ _ _ h
  · rw [List.getD_eq_default _ _ (Nat.le_of_not_lt h)]
    by_cases h2 : i < l.length + k
    · rw [List.getD_eq_getElem _ _ (by simp only [List.length_append, List.length_replicate]; omega)]
      rw [List.getElem_append_right (Nat.le_of_not_lt h)]
      simp
    · rw [List.getD_eq_default]
      simp only [List.length_append, List.length_replicate]
      omega

/-- All five per-person lists have the same length. -/
def wf (g : Gym) : Prop :=
  g.pushup_count.length = g.squat_count.length ∧
  g.angle.length = g.squat_count.length ∧
  g.stage.length = g.squat_count.length ∧
  g.exercise.length = g.squat_count.length

instance (g : Gym) : Decidable (wf g) := by
  unfold wf
  infer_instance

/-- Appending `k` default entries to each per-person list: the loop of
`initialize_person` performs exactly this. -/
def pad (g : Gym) (k : ℕ) : Gym :=
  { g with
    squat_count := g.squat_count ++ List.replicate k 0
    pushup_count := g.pushup_count ++ List.replicate k 0
    angle := g.angle ++ List.replicate k 0
    stage := g.stage ++ List.replicate k "-"
    exercise := g.exercise ++ List.replicate k none }

theorem pad_zero (g : Gym) : pad g 0 = g := by
  simp [pad]

theorem pad_pad (g : Gym) (k1 k2 : ℕ) : pad (pad g k1) k2 = pad g (k1 + k2) := by
  unfold pad
  simp only [List.append_assoc]
  rw [← List.replicate_add, ← List.replicate_add, ← List.replicate_add,
    ← List.replicate_add]

theorem initialize_person_eq_pad (k : ℕ) :
    ∀ (g : Gym) (n : ℕ), n + 1 - g.squat_count.length = k →
      initialize_person g n = pad g k := by
  induction k with
  | zero =>
    intro g n hk
    unfold initialize_person
    rw [dif_neg (by omega)]
    exact (pad_zero g).symm
  | succ k ih =>
    intro g n hk
    unfold initialize_person
    rw [dif_pos (by omega)]
    rw [ih _ n (by simp only [List.length_append, List.length_cons, List.length_nil]; omega)]
    simp only [pad, List.append_assoc, List.singleton_append, List.replicate_succ]

/-- Closed form of `initialize_person`: pad every list with defaults until
`squat_count` has length at least `n + 1`. -/
theorem initialize_person_eq (g : Gym) (n : ℕ) :
    initialize_person g n = pad g (n + 1 - g.squat_count.length) :=
  initialize_person_eq_pad _ g n rfl

/-- If the identity already has an entry, `initialize_person` changes nothing. -/
theorem initialize_person_noop (g : Gym) (n : ℕ) (h : n < g.squat_count.length) :
    initialize_person g n = g := by
  rw [initialize_person_eq, Nat.sub_eq_zero_of_le (by omega), pad_zero]

/-- On classification failure, the per-person step is lazy initialization
alone. -/
theorem process_person_none (est : Kpt → Kpt → Kpt → ℚ) (g : Gym) (e : ℕ × List Kpt)
    (hd : detect_exercise e.2 = none) :
    process_person est g e = initialize_person g e.1 := by
  unfold process_person
  dsimp only
  rw [hd]

/-- On classification success, the per-person step is: initialize, record
the exercise and the estimated angle, then run the state machine. -/
theorem process_person_some (est : Kpt → Kpt → Kpt → ℚ) (g : Gym) (e : ℕ × List Kpt)
    (ex : String) (hd : detect_exercise e.2 = some ex) :
    process_person est g e =
      update_stage_and_count
        { initialize_person g e.1 with
          exercise := (initialize_person g e.1).exercise.set e.1 (some ex)
          angle := (initialize_person g e.1).angle.set e.1 (angle_of est e.2 ex) }
        e.1 ex (angle_of est e.2 ex) := by
  unfold process_person
  dsimp only
  rw [hd]

/-- Recording the classified exercise and the estimated angle for one
identity (lines 172 and 181), before the state-machine update. -/
def write_prep (g : Gym) (pid : ℕ) (ex : String) (a : ℚ) : Gym :=
  { g with
    exercise := g.exercise.set pid (some ex)
    angle := g.angle.set pid a }

theorem write_prep_squat (g : Gym) (pid : ℕ) (ex : String) (a : ℚ) :
    (write_prep g pid ex a).squat_count = g.squat_count := rfl

theorem write_prep_pushup (g : Gym) (pid : ℕ) (ex : String) (a : ℚ) :
    (write_prep g pid ex a).pushup_count = g.pushup_count := rfl

theorem write_prep_stage (g : Gym) (pid : ℕ) (ex : String) (a : ℚ) :
    (write_prep g pid ex a).stage = g.stage := rfl

theorem write_prep_angle (g : Gym) (pid : ℕ) (ex : String) (a : ℚ) :
    (write_prep g pid ex a).angle = g.angle.set pid a := rfl

theorem write_prep_exercise (g : Gym) (pid : ℕ) (ex : String) (a : ℚ) :
    (write_prep g pid ex a).exercise = g.exercise.set pid (some ex) := rfl

theorem write_prep_up (g : Gym) (pid : ℕ) (ex : String) (a : ℚ) :
    (write_prep g pid ex a).up_angle = g.up_angle := rfl

theorem write_prep_down (g : Gym) (pid : ℕ) (ex : String) (a : ℚ) :
    (write_prep g pid ex a).down_angle = g.down_angle := rfl

/-- The successful branch of the per-person step, phrased with `write_prep`. -/
theorem process_person_some' (est : Kpt → Kpt → Kpt → ℚ) (g : Gym) (e : ℕ × List Kpt)
    (ex : String) (hd : detect_exercise e.2 = some ex) :
    process_person est g e =
      update_stage_and_count
        (write_prep (initialize_person g e.1) e.1 ex (angle_of est e.2 ex))
        e.1 ex (angle_of est e.2 ex) := by
  rw [process_person_some est g e ex hd]
  rfl

/-- A one-person gym state used to instantiate theorems with hypotheses. -/
def gW : Gym :=
  { squat_count := [0]
    pushup_count := [0]
    angle := [0]
    stage := ["up"]
    exercise := [some "squat"]
    up_angle := 160
    down_angle := 90 }

/-- C1: for every person state, every classified exercise in {"squat",
"pushup"} and every angle, one application of `update_stage_and_count`
follows the specified transition: below `down_angle` the counter of the
current exercise grows by 1 exactly when the prior stage was "up" and the
stage becomes "down"; above `up_angle` the stage becomes "up"
unconditionally; inside the hysteresis band nothing changes. -/
theorem update_transition_spec (g : Gym) (pid : ℕ) (ex : String) (a : ℚ)
    (hsq : pid < g.squat_count.length) (hpu : pid < g.pushup_count.length)
    (hst : pid < g.stage.length) (hex : ex = "squat" ∨ ex = "pushup") :
    (a < g.down_angle →
      (update_stage_and_count g pid ex a).stage.getD pid "-" = "down" ∧
      (ex = "squat" →
        ((update_stage_and_count g pid ex a).squat_count.getD pid 0
            = g.squat_count.getD pid 0 + 1 ↔ g.stage.getD pid "-" = "up") ∧
        (update_stage_and_count g pid ex a).pushup_count = g.pushup_count) ∧
      (ex = "pushup" →
        ((update_stage_and_count g pid ex a).pushup_count.getD pid 0
            = g.pushup_count.getD pid 0 + 1 ↔ g.stage.getD pid "-" = "up") ∧
        (update_stage_and_count g pid ex a).squat_count = g.squat_count) ∧
      (g.stage.getD pid "-" ≠ "up" →
        (update_stage_and_count g pid ex a).squat_count = g.squat_count ∧
        (update_stage_and_count g pid ex a).pushup_count = g.pushup_count)) ∧
    (¬ a < g.down_angle → a > g.up_angle →
      update_stage_and_count g pid ex a = { g with stage := g.stage.set pid "up" }) ∧
    (¬ a < g.down_angle → ¬ a > g.up_angle →
      update_stage_and_count g pid ex a = g) := by
  have hstage : (update_stage_and_count g pid ex a).stage =
      if a < g.down_angle then g.stage.set pid "down"
      else if a > g.up_angle then g.stage.set pid "up" else g.stage := by
    rw [update_eq]
  have hsqf : (update_stage_and_count g pid ex a).squat_count =
      if a < g.down_angle ∧ g.stage.getD pid "-" = "up" ∧ ex = "squat" then
        g.squat_count.set pid (g.squat_count.getD pid 0 + 1)
      else g.squat_count := by
    rw [update_eq]
  have hpuf : (update_stage_and_count g pid ex a).pushup_count =
      if a < g.down_angle ∧ g.stage.getD pid "-" = "up" ∧ ex = "pushup" then
        g.pushup_count.set pid (g.pushup_count.getD pid 0 + 1)
      else g.pushup_count := by
    rw [update_eq]
  refine ⟨fun h1 => ?_, fun h1 h5 => ?_, fun h1 h5 => ?_⟩
  · refine ⟨?_, fun h3 => ?_, fun h4 => ?_, fun hn => ?_⟩
    · rw [hstage, if_pos h1]
      exact getD_set_self _ _ _ _ hst
    · subst h3
      refine ⟨?_, ?_⟩
      · by_cases h2 : g.stage.getD pid "-" = "up"
        · rw [hsqf, if_pos ⟨h1, h2, rfl⟩, getD_set_self _ _ _ _ hsq]
          exact ⟨fun _ => h2, fun _ => rfl⟩
        · rw [hsqf, if_neg (fun hc => h2 hc.2.1)]
          exact ⟨fun habs => by omega, fun hu => absurd hu h2⟩
      · rw [hpuf, if_neg (fun hc => absurd hc.2.2 (by decide))]
    · subst h4
      refine ⟨?_, ?_⟩
      · by_cases h2 : g.stage.getD pid "-" = "up"
        · rw [hpuf, if_pos ⟨h1, h2, rfl⟩, getD_set_self _ _ _ _ hpu]
          exact ⟨fun _ => h2, fun _ => rfl⟩
        · rw [hpuf, if_neg (fun hc => h2 hc.2.1)]
          exact ⟨fun habs => by omega, fun hu => absurd hu h2⟩
      · rw [hsqf, if_neg (fun hc => absurd hc.2.2 (by decide))]
    · refine ⟨?_, ?_⟩
      · rw [hsqf, if_neg (fun hc => hn hc.2.1)]
      · rw [hpuf, if_neg (fun hc => hn hc.2.1)]
  · rw [update_eq]
    simp [h1, h5]
  · rw [update_eq]
    simp [h1, h5]

/-- Witness for C1: the one-person gym in stage "up", a squat at angle 50
(below `down_angle = 90`) is counted and the stage becomes "down". -/
theorem update_transition_spec_witness :
    (update_stage_and_count gW 0 "squat" 50).stage.getD 0 "-" = "down" ∧
    (update_stage_and_count gW 0 "squat" 50).squat_count.getD 0 0 = 1 := by
  have h := update_transition_spec gW 0 "squat" 50 (by decide) (by decide) (by decide)
    (Or.inl rfl)
  have h1 := h.1 (by norm_num [gW])
  refine ⟨h1.1, ?_⟩
  have h2 := (h1.2.1 rfl).1.mpr (by decide)
  simpa using h2

/-- Setting an index either leaves a `getD` value alone or makes it the new
value. -/
theorem getD_set_cases {α : Type _} (l : List α) (i j : ℕ) (v d : α) :
    (l.set i v).getD j d = l.getD j d ∨ (l.set i v).getD j d = v := by
  by_cases hij : j = i
  · subst hij
    by_cases h : j < l.length
    · exact Or.inr (getD_set_self _ _ _ _ h)
    · rw [List.set_eq_of_length_le (Nat.le_of_not_lt h)]
      exact Or.inl rfl
  · exact Or.inl (getD_set_ne _ _ _ _ _ (fun he => hij he.symm))

/-- A `getD` value different from the default can only come from a real
entry, so the index is in range. -/
theorem lt_length_of_getD_ne {α : Type _} (l : List α) (i : ℕ) (d : α)
    (h : l.getD i d ≠ d) : i < l.length := by
  by_contra hc
  exact h (List.getD_eq_default _ _ (Nat.le_of_not_lt hc))

theorem update_up_angle (g : Gym) (pid : ℕ) (ex : String) (a : ℚ) :
    (update_stage_and_count g pid ex a).up_angle = g.up_angle := by
  rw [update_eq]

theorem update_down_angle (g : Gym) (pid : ℕ) (ex : String) (a : ℚ) :
    (update_stage_and_count g pid ex a).down_angle = g.down_angle := by
  rw [update_eq]

theorem update_stage_field (g : Gym) (pid : ℕ) (ex : String) (a : ℚ) :
    (update_stage_and_count g pid ex a).stage =
      if a < g.down_angle then g.stage.set pid "down"
      else if a > g.up_angle then g.stage.set pid "up" else g.stage := by
  rw [update_eq]

theorem update_squat_field (g : Gym) (pid : ℕ) (ex : String) (a : ℚ) :
    (update_stage_and_count g pid ex a).squat_count =
      if a < g.down_angle ∧ g.stage.getD pid "-" = "up" ∧ ex = "squat" then
        g.squat_count.set pid (g.squat_count.getD pid 0 + 1)
      else g.squat_count := by
  rw [update_eq]

theorem update_pushup_field (g : Gym) (pid : ℕ) (ex : String) (a : ℚ) :
    (update_stage_and_count g pid ex a).pushup_count =
      if a < g.down_angle ∧ g.stage.getD pid "-" = "up" ∧ ex = "pushup" then
        g.pushup_count.set pid (g.pushup_count.getD pid 0 + 1)
      else g.pushup_count := by
  rw [update_eq]

/-- One update moves any stage observation to itself, "up" or "down". -/
theorem update_stage_getD_cases (g : Gym) (pid : ℕ) (ex : String) (a : ℚ) (i : ℕ) :
    (update_stage_and_count g pid ex a).stage.getD i "-" = g.stage.getD i "-" ∨
    (update_stage_and_count g pid ex a).stage.getD i "-" = "up" ∨
    (update_stage_and_count g pid ex a).stage.getD i "-" = "down" := by
  rw [update_stage_field]
  split_ifs with h1 h2
  · rcases getD_set_cases g.stage pid i "down" "-" with h | h
    · exact Or.inl h
    · exact Or.inr (Or.inr h)
  · rcases getD_set_cases g.stage pid i "up" "-" with h | h
    · exact Or.inl h
    · exact Or.inr (Or.inl h)
  · exact Or.inl rfl

/-- C4: with all four required keypoints present, the classifier returns
"squat" exactly when the horizontal midpoint distance is strictly smaller
than the vertical one, and "pushup" otherwise; at equality it returns
"pushup". -/
theorem detect_exercise_spec (kpts : List Kpt) (k5 k6 k11 k12 : Kpt)
    (h5 : kpts[5]? = some k5) (h6 : kpts[6]? = some k6)
    (h11 : kpts[11]? = some k11) (h12 : kpts[12]? = some k12) :
    detect_exercise kpts =
      some (if |(k5.x + k6.x) / 2 - (k11.x + k12.x) / 2|
              < |(k5.y + k6.y) / 2 - (k11.y + k12.y) / 2| then "squat" else "pushup") ∧
    (|(k5.x + k6.x) / 2 - (k11.x + k12.x) / 2|
        = |(k5.y + k6.y) / 2 - (k11.y + k12.y) / 2| →
      detect_exercise kpts = some "pushup") := by
  have hbase : detect_exercise kpts =
      some (if |(k5.x + k6.x) / 2 - (k11.x + k12.x) / 2|
              < |(k5.y + k6.y) / 2 - (k11.y + k12.y) / 2| then "squat" else "pushup") := by
    unfold detect_exercise
    rw [h5, h6, h11, h12]
  refine ⟨hbase, fun hd => ?_⟩
  rw [hbase, if_neg (by rw [hd]; exact lt_irrefl _)]

/-- Witness for C4: seventeen zero keypoints give equal (zero) distances, so
the classification is "pushup". -/
theorem detect_exercise_spec_witness :
    detect_exercise (List.replicate 17 kptZero) = some "pushup" := by
  have h := detect_exercise_spec (List.replicate 17 kptZero) kptZero kptZero kptZero kptZero
    rfl rfl rfl rfl
  exact h.2 (by norm_num [kptZero])

/-- C5: when any required keypoint (index 5, 6, 11 or 12) is missing, the
classifier returns `none` and the per-person processing step leaves the
whole state untouched (for an identity that already has an entry). -/
theorem detect_missing_no_mutation (kpts : List Kpt)
    (hmiss : kpts[5]? = none ∨ kpts[6]? = none ∨ kpts[11]? = none ∨ kpts[12]? = none) :
    detect_exercise kpts = none ∧
    ∀ (est : Kpt → Kpt → Kpt → ℚ) (g : Gym) (pid : ℕ),
      pid < g.squat_count.length → process_person est g (pid, kpts) = g := by
  have hd : detect_exercise kpts = none := by
    unfold detect_exercise
    rcases e5 : kpts[5]? with _ | k5 <;> rcases e6 : kpts[6]? with _ | k6 <;>
      rcases e11 : kpts[11]? with _ | k11 <;> rcases e12 : kpts[12]? with _ | k12 <;>
      simp_all
  refine ⟨hd, fun est g pid hlen => ?_⟩
  unfold process_person
  dsimp only
  rw [hd]
  exact initialize_person_noop g pid hlen

/-- Witness for C5: the empty keypoint list classifies to `none` and leaves
the one-person gym state unchanged. -/
theorem detect_missing_no_mutation_witness :
    detect_exercise ([] : List Kpt) = none ∧ process_person est0 gW (0, []) = gW := by
  have h := detect_missing_no_mutation [] (Or.inl rfl)
  exact ⟨h.1, h.2 est0 gW 0 (by decide)⟩

/-- C7 counterexample: called on `none` (the Unknown exercise), the selector
does return a result, namely the push-up indices `[6, 8, 10]` — it does not
return "no result". -/
theorem get_kpts_indices_unknown_counterexample :
    get_kpts_indices none = [6, 8, 10] ∧ get_kpts_indices none ≠ [] := by
  exact ⟨rfl, by decide⟩

/-- C7 (amended): the selector returns `[12, 14, 16]` for "squat" and
`[6, 8, 10]` for every other input — "pushup" and Unknown alike; during
processing an Unknown classification skips angle computation because the
caller returns before the selector is consulted. -/
theorem get_kpts_indices_amended :
    get_kpts_indices (some "squat") = [12, 14, 16] ∧
    (∀ e : Option String, e ≠ some "squat" → get_kpts_indices e = [6, 8, 10]) ∧
    (∀ (est : Kpt → Kpt → Kpt → ℚ) (g : Gym) (pid : ℕ) (kpts : List Kpt),
      detect_exercise kpts = none →
      process_person est g (pid, kpts) = initialize_person g pid) := by
  refine ⟨rfl, fun e he => ?_, fun est g pid kpts hd => ?_⟩
  · unfold get_kpts_indices
    rw [if_neg he]
  · unfold process_person
    dsimp only
    rw [hd]

/-- Witness for C7's amended statement at the Unknown input and an empty
keypoint list. -/
theorem get_kpts_indices_amended_witness :
    get_kpts_indices none = [6, 8, 10] ∧
    process_person est0 mkGym (0, []) = initialize_person mkGym 0 := by
  exact ⟨get_kpts_indices_amended.2.1 none (by simp),
    get_kpts_indices_amended.2.2 est0 mkGym 0 [] rfl⟩

/-- C8: a single update can only keep a stage observation or move it to "up"
or "down", and consequently once an identity's stage differs from the
initial "-" it never returns to "-" under any sequence of updates. -/
theorem stage_never_back_to_neutral :
    (∀ (g : Gym) (pid : ℕ) (ex : String) (a : ℚ) (i : ℕ),
      (update_stage_and_count g pid ex a).stage.getD i "-" = g.stage.getD i "-" ∨
      (update_stage_and_count g pid ex a).stage.getD i "-" = "up" ∨
      (update_stage_and_count g pid ex a).stage.getD i "-" = "down") ∧
    (∀ (g : Gym) (steps : List (ℕ × String × ℚ)) (i : ℕ),
      g.stage.getD i "-" ≠ "-" →
      (run_updates g steps).stage.getD i "-" ≠ "-") := by
  refine ⟨update_stage_getD_cases, fun g steps => ?_⟩
  induction steps generalizing g with
  | nil => exact fun i h => h
  | cons s rest ih =>
    intro i h
    have hr : run_updates g (s :: rest) =
        run_updates (update_stage_and_count g s.1 s.2.1 s.2.2) rest := rfl
    rw [hr]
    apply ih
    rcases update_stage_getD_cases g s.1 s.2.1 s.2.2 i with h0 | h0 | h0
    · rw [h0]; exact h
    · rw [h0]; decide
    · rw [h0]; decide

/-- Witness for C8: the one-person gym starts in stage "up"; after a
counting update its stage is still not "-". -/
theorem stage_never_back_to_neutral_witness :
    (run_updates gW [(0, "squat", 50)]).stage.getD 0 "-" ≠ "-" :=
  stage_never_back_to_neutral.2 gW [(0, "squat", 50)] 0 (by decide)

/-- An in-place increment never lowers any observed counter value. -/
theorem getD_le_set_incr (l : List ℕ) (p i : ℕ) :
    l.getD i 0 ≤ (l.set p (l.getD p 0 + 1)).getD i 0 := by
  by_cases hip : i = p
  · subst hip
    by_cases h : i < l.length
    · rw [getD_set_self _ _ _ _ h]
      exact Nat.le_succ _
    · rw [List.set_eq_of_length_le (Nat.le_of_not_lt h)]
  · rw [getD_set_ne _ _ _ _ _ (fun he => hip he.symm)]

/-- One update never lowers either counter at any index. -/
theorem update_counts_mono (g : Gym) (pid : ℕ) (ex : String) (a : ℚ) (i : ℕ) :
    g.squat_count.getD i 0 ≤ (update_stage_and_count g pid ex a).squat_count.getD i 0 ∧
    g.pushup_count.getD i 0 ≤ (update_stage_and_count g pid ex a).pushup_count.getD i 0 := by
  constructor
  · rw [update_squat_field]
    split_ifs with h1
    · exact getD_le_set_incr _ _ _
    · exact Nat.le_refl _
  · rw [update_pushup_field]
    split_ifs with h1
    · exact getD_le_set_incr _ _ _
    · exact Nat.le_refl _

/-- Lazy initialization does not change any observed counter value. -/
theorem initialize_counts_getD (g : Gym) (n i : ℕ) :
    (initialize_person g n).squat_count.getD i 0 = g.squat_count.getD i 0 ∧
    (initialize_person g n).pushup_count.getD i 0 = g.pushup_count.getD i 0 := by
  rw [initialize_person_eq]
  exact ⟨getD_append_pad _ _ _ _, getD_append_pad _ _ _ _⟩

/-- The per-person processing step never lowers either counter at any index. -/
theorem process_person_counts_mono (est : Kpt → Kpt → Kpt → ℚ) (g : Gym)
    (e : ℕ × List Kpt) (i : ℕ) :
    g.squat_count.getD i 0 ≤ (process_person est g e).squat_count.getD i 0 ∧
    g.pushup_count.getD i 0 ≤ (process_person est g e).pushup_count.getD i 0 := by
  rcases hdet : detect_exercise e.2 with _ | ex
  · rw [process_person_none est g e hdet]
    exact ⟨le_of_eq (initialize_counts_getD g e.1 i).1.symm,
      le_of_eq (initialize_counts_getD g e.1 i).2.symm⟩
  · rw [process_person_some est g e ex hdet]
    have hmono := update_counts_mono
      { initialize_person g e.1 with
        exercise := (initialize_person g e.1).exercise.set e.1 (some ex)
        angle := (initialize_person g e.1).angle.set e.1 (angle_of est e.2 ex) }
      e.1 ex (angle_of est e.2 ex) i
    constructor
    · exact le_trans (le_of_eq (initialize_counts_getD g e.1 i).1.symm) hmono.1
    · exact le_trans (le_of_eq (initialize_counts_getD g e.1 i).2.symm) hmono.2

/-- Folding the per-person step over one frame never lowers a counter. -/
theorem foldl_pp_counts_mono (est : Kpt → Kpt → Kpt → ℚ)
    (frame : List (ℕ × List Kpt)) :
    ∀ (g : Gym) (i : ℕ),
      g.squat_count.getD i 0 ≤ (frame.foldl (process_person est) g).squat_count.getD i 0 ∧
      g.pushup_count.getD i 0 ≤ (frame.foldl (process_person est) g).pushup_count.getD i 0 := by
  induction frame with
  | nil => exact fun g i => ⟨Nat.le_refl _, Nat.le_refl _⟩
  | cons e rest ih =>
    intro g i
    constructor
    · exact le_trans (process_person_counts_mono est g e i).1 (ih (process_person est g e) i).1
    · exact le_trans (process_person_counts_mono est g e i).2 (ih (process_person est g e) i).2

/-- Processing any sequence of frames never lowers a counter. -/
theorem run_frames_counts_mono (est : Kpt → Kpt → Kpt → ℚ)
    (frames : List (List (ℕ × List Kpt))) :
    ∀ (g : Gym) (i : ℕ),
      g.squat_count.getD i 0 ≤ (run_frames est g frames).squat_count.getD i 0 ∧
      g.pushup_count.getD i 0 ≤ (run_frames est g frames).pushup_count.getD i 0 := by
  induction frames with
  | nil => exact fun g i => ⟨Nat.le_refl _, Nat.le_refl _⟩
  | cons f rest ih =>
    intro g i
    constructor
    · exact le_trans (foldl_pp_counts_mono est f g i).1 (ih ((process est g f).1) i).1
    · exact le_trans (foldl_pp_counts_mono est f g i).2 (ih ((process est g f).1) i).2

/-- C2: both counters of every identity are non-decreasing over any sequence
of frames, and a single update either leaves both counter lists unchanged or
increments exactly one of them at exactly the updated identity by exactly 1. -/
theorem counters_monotone_and_unit_step :
    (∀ (est : Kpt → Kpt → Kpt → ℚ) (g : Gym) (frames : List (List (ℕ × List Kpt))) (i : ℕ),
      g.squat_count.getD i 0 ≤ (run_frames est g frames).squat_count.getD i 0 ∧
      g.pushup_count.getD i 0 ≤ (run_frames est g frames).pushup_count.getD i 0) ∧
    (∀ (g : Gym) (pid : ℕ) (ex : String) (a : ℚ),
      ((update_stage_and_count g pid ex a).squat_count = g.squat_count ∧
       (update_stage_and_count g pid ex a).pushup_count = g.pushup_count) ∨
      ((update_stage_and_count g pid ex a).squat_count
          = g.squat_count.set pid (g.squat_count.getD pid 0 + 1) ∧
       (update_stage_and_count g pid ex a).pushup_count = g.pushup_count) ∨
      ((update_stage_and_count g pid ex a).squat_count = g.squat_count ∧
       (update_stage_and_count g pid ex a).pushup_count
          = g.pushup_count.set pid (g.pushup_count.getD pid 0 + 1))) := by
  constructor
  · exact fun est g frames i => run_frames_counts_mono est frames g i
  · intro g pid ex a
    by_cases h1 : a < g.down_angle ∧ g.stage.getD pid "-" = "up" ∧ ex = "squat"
    · refine Or.inr (Or.inl ⟨?_, ?_⟩)
      · rw [update_squat_field, if_pos h1]
      · rw [update_pushup_field, if_neg ?_]
        intro hc
        have hcp := hc.2.2
        rw [h1.2.2] at hcp
        exact absurd hcp (by decide)
    · by_cases h2 : a < g.down_angle ∧ g.stage.getD pid "-" = "up" ∧ ex = "pushup"
      · refine Or.inr (Or.inr ⟨?_, ?_⟩)
        · rw [update_squat_field, if_neg h1]
        · rw [update_pushup_field, if_pos h2]
      · refine Or.inl ⟨?_, ?_⟩
        · rw [update_squat_field, if_neg h1]
        · rw [update_pushup_field, if_neg h2]

/-- From stage "down", as long as no update of this identity carries an angle
above `up_angle`, the stage stays "down" and the identity's counters are
frozen (updates of other identities may interleave freely). -/
theorem run_updates_stays_down (steps : List (ℕ × String × ℚ)) :
    ∀ (g : Gym) (pid : ℕ),
      g.stage.getD pid "-" = "down" →
      (∀ s ∈ steps, s.1 = pid → s.2.2 ≤ g.up_angle) →
      (run_updates g steps).stage.getD pid "-" = "down" ∧
      (run_updates g steps).squat_count.getD pid 0 = g.squat_count.getD pid 0 ∧
      (run_updates g steps).pushup_count.getD pid 0 = g.pushup_count.getD pid 0 := by
  induction steps with
  | nil => exact fun g pid h _ => ⟨h, rfl, rfl⟩
  | cons s rest ih =>
    intro g pid hdown hbound
    obtain ⟨q, ex, a⟩ := s
    have hstep : run_updates g ((q, ex, a) :: rest) =
        run_updates (update_stage_and_count g q ex a) rest := rfl
    rw [hstep]
    have hstage' : (update_stage_and_count g q ex a).stage.getD pid "-" = "down" := by
      rw [update_stage_field]
      by_cases hq : q = pid
      · subst hq
        have hb : a ≤ g.up_angle := hbound (q, ex, a) (List.mem_cons_self _ _) rfl
        split_ifs with h1 h2
        · exact getD_set_self _ _ _ _ (lt_length_of_getD_ne _ _ _ (by rw [hdown]; decide))
        · exact absurd h2 (not_lt.mpr hb)
        · exact hdown
      · split_ifs with h1 h2
        · rw [getD_set_ne _ _ _ _ _ hq]
          exact hdown
        · rw [getD_set_ne _ _ _ _ _ hq]
          exact hdown
        · exact hdown
    have hsq' : (update_stage_and_count g q ex a).squat_count.getD pid 0
        = g.squat_count.getD pid 0 := by
      rw [update_squat_field]
      split_ifs with h1
      · by_cases hq : q = pid
        · subst hq
          rw [hdown] at h1
          exact absurd h1.2.1 (by decide)
        · exact getD_set_ne _ _ _ _ _ hq
      · rfl
    have hpu' : (update_stage_and_count g q ex a).pushup_count.getD pid 0
        = g.pushup_count.getD pid 0 := by
      rw [update_pushup_field]
      split_ifs with h1
      · by_cases hq : q = pid
        · subst hq
          rw [hdown] at h1
          exact absurd h1.2.1 (by decide)
        · exact getD_set_ne _ _ _ _ _ hq
      · rfl
    have hb' : ∀ s ∈ rest, s.1 = pid →
        s.2.2 ≤ (update_stage_and_count g q ex a).up_angle := by
      intro s hs hsid
      rw [update_up_angle]
      exact hbound s (List.mem_cons_of_mem _ hs) hsid
    obtain ⟨H1, H2, H3⟩ := ih (update_stage_and_count g q ex a) pid hstage' hb'
    exact ⟨H1, H2.trans hsq', H3.trans hpu'⟩

/-- C6: after an update that takes the identity from stage "up" through the
`down_angle` threshold (the counting edge), no subsequent sequence of
updates increments either of the identity's counters as long as none of its
angles exceeds `up_angle`. -/
theorem no_double_count_until_up (g : Gym) (pid : ℕ) (ex : String) (a : ℚ)
    (steps : List (ℕ × String × ℚ))
    (hup : g.stage.getD pid "-" = "up") (ha : a < g.down_angle)
    (hbound : ∀ s ∈ steps, s.1 = pid → s.2.2 ≤ g.up_angle) :
    (run_updates (update_stage_and_count g pid ex a) steps).squat_count.getD pid 0
      = (update_stage_and_count g pid ex a).squat_count.getD pid 0 ∧
    (run_updates (update_stage_and_count g pid ex a) steps).pushup_count.getD pid 0
      = (update_stage_and_count g pid ex a).pushup_count.getD pid 0 := by
  have hdown : (update_stage_and_count g pid ex a).stage.getD pid "-" = "down" := by
    rw [update_stage_field, if_pos ha]
    exact getD_set_self _ _ _ _ (lt_length_of_getD_ne _ _ _ (by rw [hup]; decide))
  have hb : ∀ s ∈ steps, s.1 = pid →
      s.2.2 ≤ (update_stage_and_count g pid ex a).up_angle := by
    intro s hs hid
    rw [update_up_angle]
    exact hbound s hs hid
  obtain ⟨-, H2, H3⟩ :=
    run_updates_stays_down steps (update_stage_and_count g pid ex a) pid hdown hb
  exact ⟨H2, H3⟩

/-- Witness for C6: after the counting edge at angle 50, two further low
angles (50 and 80, both ≤ up_angle) leave the squat counter untouched. -/
theorem no_double_count_until_up_witness :
    (run_updates (update_stage_and_count gW 0 "squat" 50)
        [(0, "squat", 50), (0, "squat", 80)]).squat_count.getD 0 0
      = (update_stage_and_count gW 0 "squat" 50).squat_count.getD 0 0 :=
  (no_double_count_until_up gW 0 "squat" 50 [(0, "squat", 50), (0, "squat", 80)]
    rfl (by norm_num [gW]) (by decide)).1

/-- C3 (amended): first observation of identity `n` pads every per-person
list with default entries (count 0, stage "-", exercise `none`, angle 0) up
to index `n`, and the snapshot's `total_tracks` equals the number of
entries in the current frame — not the number of identities ever
initialized. -/
theorem initialize_pads_and_total_is_frame_length :
    (∀ (g : Gym) (n : ℕ),
      initialize_person g n = pad g (n + 1 - g.squat_count.length)) ∧
    (∀ (est : Kpt → Kpt → Kpt → ℚ) (g : Gym) (frame : List (ℕ × List Kpt)),
      (process est g frame).2.total_tracks = frame.length) :=
  ⟨initialize_person_eq, fun _ _ _ => rfl⟩

/-- C3 counterexample: a first frame containing only identity 5 initializes
six entries (identities 0-5), yet the snapshot reports `total_tracks = 1`,
the current frame's track count — contradicting the claim that the reported
total equals the number of identities ever initialized. -/
theorem total_tracks_counterexample :
    (process est0 mkGym [(5, List.replicate 17 kptZero)]).2.total_tracks = 1 ∧
    (process est0 mkGym [(5, List.replicate 17 kptZero)]).1.squat_count.length = 6 ∧
    (process est0 mkGym [(5, List.replicate 17 kptZero)]).2.total_tracks
      ≠ (process est0 mkGym [(5, List.replicate 17 kptZero)]).1.squat_count.length := by
  have hdet : detect_exercise (List.replicate 17 kptZero) = some "pushup" := by
    norm_num [detect_exercise, kptZero]
  have hstate : (process est0 mkGym [(5, List.replicate 17 kptZero)]).1
      = process_person est0 mkGym (5, List.replicate 17 kptZero) := rfl
  have hlen : (process_person est0 mkGym (5, List.replicate 17 kptZero)).squat_count.length
      = 6 := by
    rw [process_person_some est0 mkGym (5, List.replicate 17 kptZero) "pushup" hdet]
    rw [update_squat_field]
    split_ifs with h1 <;> simp [initialize_person_eq, pad, mkGym, List.length_set]
  refine ⟨rfl, ?_, ?_⟩
  · rw [hstate]
    exact hlen
  · rw [hstate, hlen]
    have htot : (process est0 mkGym [(5, List.replicate 17 kptZero)]).2.total_tracks = 1 := rfl
    rw [htot]
    decide

theorem wf_pad (g : Gym) (k : ℕ) (h : wf g) : wf (pad g k) := by
  obtain ⟨h1, h2, h3, h4⟩ := h
  refine ⟨?_, ?_, ?_, ?_⟩ <;> simp [pad, h1, h2, h3, h4]

theorem wf_initialize (g : Gym) (n : ℕ) (h : wf g) : wf (initialize_person g n) := by
  rw [initialize_person_eq]
  exact wf_pad _ _ h

theorem wf_update (g : Gym) (pid : ℕ) (ex : String) (a : ℚ) (h : wf g) :
    wf (update_stage_and_count g pid ex a) := by
  obtain ⟨h1, h2, h3, h4⟩ := h
  rw [update_eq]
  refine ⟨?_, ?_, ?_, ?_⟩ <;> dsimp only <;> split_ifs <;>
    simp [List.length_set, h1, h2, h3, h4]

theorem wf_process_person (est : Kpt → Kpt → Kpt → ℚ) (g : Gym) (e : ℕ × List Kpt)
    (h : wf g) : wf (process_person est g e) := by
  rcases hdet : detect_exercise e.2 with _ | ex
  · rw [process_person_none est g e hdet]
    exact wf_initialize _ _ h
  · rw [process_person_some est g e ex hdet]
    apply wf_update
    obtain ⟨h1, h2, h3, h4⟩ := wf_initialize g e.1 h
    refine ⟨h1, ?_, h3, ?_⟩
    · simpa [List.length_set] using h2
    · simpa [List.length_set] using h4

theorem wf_foldl_pp (est : Kpt → Kpt → Kpt → ℚ) (frame : List (ℕ × List Kpt)) :
    ∀ g : Gym, wf g → wf (frame.foldl (process_person est) g) := by
  induction frame with
  | nil => exact fun g h => h
  | cons e rest ih => exact fun g h => ih (process_person est g e) (wf_process_person est g e h)

/-- C10: the five per-person lists start with equal length (zero) and every
operation — lazy initialization, the state-machine update, the per-person
step and whole-frame processing — preserves that equality; moreover
`initialize_person` on an already-initialized identity changes nothing. -/
theorem lists_equal_length_invariant :
    (∀ u d : ℚ, wf (mkGym u d)) ∧
    (∀ (g : Gym) (n : ℕ), wf g → wf (initialize_person g n)) ∧
    (∀ (g : Gym) (pid : ℕ) (ex : String) (a : ℚ), wf g →
      wf (update_stage_and_count g pid ex a)) ∧
    (∀ (est : Kpt → Kpt → Kpt → ℚ) (g : Gym) (e : ℕ × List Kpt), wf g →
      wf (process_person est g e)) ∧
    (∀ (est : Kpt → Kpt → Kpt → ℚ) (g : Gym) (frame : List (ℕ × List Kpt)), wf g →
      wf ((process est g frame).1)) ∧
    (∀ (g : Gym) (n : ℕ), n < g.squat_count.length → initialize_person g n = g) := by
  refine ⟨fun u d => ⟨rfl, rfl, rfl, rfl⟩, fun g n h => wf_initialize g n h,
    fun g pid ex a h => wf_update g pid ex a h,
    fun est g e h => wf_process_person est g e h,
    fun est g frame h => wf_foldl_pp est frame g h,
    fun g n h => initialize_person_noop g n h⟩

/-- Witness for C10: well-formedness of a freshly built gym survives the
lazy initialization of identity 2, and initializing the already-present
identity 0 of the one-person gym is the identity map. -/
theorem lists_equal_length_invariant_witness :
    wf (initialize_person (mkGym 160 90) 2) ∧ initialize_person gW 0 = gW :=
  ⟨lists_equal_length_invariant.2.1 (mkGym 160 90) 2 (by decide),
    lists_equal_length_invariant.2.2.2.2.2 gW 0 (by decide)⟩

/-- The five observable per-identity state fields, read with the default
values the source uses for fresh entries. -/
structure PersonObs where
  squat : ℕ
  pushup : ℕ
  ang : ℚ
  stg : String
  exv : Option String
deriving DecidableEq

/-- Observation of one identity's state. -/
def obs (g : Gym) (i : ℕ) : PersonObs :=
  { squat := g.squat_count.getD i 0
    pushup := g.pushup_count.getD i 0
    ang := g.angle.getD i 0
    stg := g.stage.getD i "-"
    exv := g.exercise.getD i none }

/-- The effect of the per-person step on its own identity's observation,
expressed purely on observations. -/
def stepObs (up down : ℚ) (o : PersonObs) (kpts : List Kpt)
    (est : Kpt → Kpt → Kpt → ℚ) : PersonObs :=
  match detect_exercise kpts with
  | none => o
  | some ex =>
    let a := angle_of est kpts ex
    if a < down then
      { squat := if o.stg = "up" ∧ ex = "squat" then o.squat + 1 else o.squat
        pushup := if o.stg = "up" ∧ ex = "pushup" then o.pushup + 1 else o.pushup
        ang := a
        stg := "down"
        exv := some ex }
    else if a > up then
      { squat := o.squat, pushup := o.pushup, ang := a, stg := "up", exv := some ex }
    else
      { squat := o.squat, pushup := o.pushup, ang := a, stg := o.stg, exv := some ex }

theorem pad_obs (g : Gym) (k i : ℕ) : obs (pad g k) i = obs g i := by
  unfold obs pad
  dsimp only
  rw [getD_append_pad, getD_append_pad, getD_append_pad, getD_append_pad, getD_append_pad]

theorem initialize_obs (g : Gym) (n i : ℕ) : obs (initialize_person g n) i = obs g i := by
  rw [initialize_person_eq]
  exact pad_obs g _ i

/-- An update of one identity does not change any other identity's
observation. -/
theorem update_obs_ne (g : Gym) (pid : ℕ) (ex : String) (a : ℚ) (i : ℕ)
    (hi : i ≠ pid) : obs (update_stage_and_count g pid ex a) i = obs g i := by
  unfold obs
  simp only [PersonObs.mk.injEq]
  refine ⟨?_, ?_, ?_, ?_, ?_⟩
  · rw [update_squat_field]
    split_ifs with h1
    · exact getD_set_ne _ _ _ _ _ (fun he => hi he.symm)
    · rfl
  · rw [update_pushup_field]
    split_ifs with h1
    · exact getD_set_ne _ _ _ _ _ (fun he => hi he.symm)
    · rfl
  · rw [show (update_stage_and_count g pid ex a).angle = g.angle from by rw [update_eq]]
  · rw [update_stage_field]
    split_ifs with h1 h2
    · exact getD_set_ne _ _ _ _ _ (fun he => hi he.symm)
    · exact getD_set_ne _ _ _ _ _ (fun he => hi he.symm)
    · rfl
  · rw [show (update_stage_and_count g pid ex a).exercise = g.exercise from by rw [update_eq]]

/-- C9 part: the per-person step leaves every other identity's observation
unchanged. -/
theorem process_person_obs_ne (est : Kpt → Kpt → Kpt → ℚ) (g : Gym)
    (e : ℕ × List Kpt) (i : ℕ) (hi : i ≠ e.1) :
    obs (process_person est g e) i = obs g i := by
  rcases hdet : detect_exercise e.2 with _ | ex
  · rw [process_person_none est g e hdet]
    exact initialize_obs g e.1 i
  · rw [process_person_some est g e ex hdet]
    rw [update_obs_ne _ _ _ _ _ hi]
    have hrec : obs
        { initialize_person g e.1 with
          exercise := (initialize_person g e.1).exercise.set e.1 (some ex)
          angle := (initialize_person g e.1).angle.set e.1 (angle_of est e.2 ex) } i
        = obs (initialize_person g e.1) i := by
      unfold obs
      rw [PersonObs.mk.injEq]
      exact ⟨rfl, rfl, getD_set_ne _ _ _ _ _ (fun he => hi he.symm), rfl,
        getD_set_ne _ _ _ _ _ (fun he => hi he.symm)⟩
    rw [hrec, initialize_obs]

/-- One update preserves every list's length. -/
theorem update_lengths (g : Gym) (pid : ℕ) (ex : String) (a : ℚ) :
    (update_stage_and_count g pid ex a).squat_count.length = g.squat_count.length ∧
    (update_stage_and_count g pid ex a).pushup_count.length = g.pushup_count.length ∧
    (update_stage_and_count g pid ex a).angle.length = g.angle.length ∧
    (update_stage_and_count g pid ex a).stage.length = g.stage.length ∧
    (update_stage_and_count g pid ex a).exercise.length = g.exercise.length := by
  rw [update_eq]
  refine ⟨?_, ?_, ?_, ?_, ?_⟩ <;> dsimp only <;> split_ifs <;> simp [List.length_set]

/-- The length of each list after the per-person step: the original length
plus the padding driven by `squat_count`'s length. -/
theorem process_person_lengths (est : Kpt → Kpt → Kpt → ℚ) (g : Gym)
    (e : ℕ × List Kpt) :
    (process_person est g e).squat_count.length
        = g.squat_count.length + (e.1 + 1 - g.squat_count.length) ∧
    (process_person est g e).pushup_count.length
        = g.pushup_count.length + (e.1 + 1 - g.squat_count.length) ∧
    (process_person est g e).angle.length
        = g.angle.length + (e.1 + 1 - g.squat_count.length) ∧
    (process_person est g e).stage.length
        = g.stage.length + (e.1 + 1 - g.squat_count.length) ∧
    (process_person est g e).exercise.length
        = g.exercise.length + (e.1 + 1 - g.squat_count.length) := by
  rcases hdet : detect_exercise e.2 with _ | ex
  · rw [process_person_none est g e hdet, initialize_person_eq]
    refine ⟨?_, ?_, ?_, ?_, ?_⟩ <;> simp [pad]
  · rw [process_person_some est g e ex hdet]
    obtain ⟨l1, l2, l3, l4, l5⟩ := update_lengths
      { initialize_person g e.1 with
        exercise := (initialize_person g e.1).exercise.set e.1 (some ex)
        angle := (initialize_person g e.1).angle.set e.1 (angle_of est e.2 ex) }
      e.1 ex (angle_of est e.2 ex)
    refine ⟨?_, ?_, ?_, ?_, ?_⟩
    · rw [l1]
      show (initialize_person g e.1).squat_count.length = _
      rw [initialize_person_eq]
      simp [pad]
    · rw [l2]
      show (initialize_person g e.1).pushup_count.length = _
      rw [initialize_person_eq]
      simp [pad]
    · rw [l3]
      show ((initialize_person g e.1).angle.set e.1 (angle_of est e.2 ex)).length = _
      rw [List.length_set, initialize_person_eq]
      simp [pad]
    · rw [l4]
      show (initialize_person g e.1).stage.length = _
      rw [initialize_person_eq]
      simp [pad]
    · rw [l5]
      show ((initialize_person g e.1).exercise.set e.1 (some ex)).length = _
      rw [List.length_set, initialize_person_eq]
      simp [pad]

theorem process_person_up_angle (est : Kpt → Kpt → Kpt → ℚ) (g : Gym)
    (e : ℕ × List Kpt) : (process_person est g e).up_angle = g.up_angle := by
  rcases hdet : detect_exercise e.2 with _ | ex
  · rw [process_person_none est g e hdet, initialize_person_eq]
    rfl
  · rw [process_person_some est g e ex hdet, update_up_angle]
    show (initialize_person g e.1).up_angle = g.up_angle
    rw [initialize_person_eq]
    rfl

theorem process_person_down_angle (est : Kpt → Kpt → Kpt → ℚ) (g : Gym)
    (e : ℕ × List Kpt) : (process_person est g e).down_angle = g.down_angle := by
  rcases hdet : detect_exercise e.2 with _ | ex
  · rw [process_person_none est g e hdet, initialize_person_eq]
    rfl
  · rw [process_person_some est g e ex hdet, update_down_angle]
    show (initialize_person g e.1).down_angle = g.down_angle
    rw [initialize_person_eq]
    rfl

/-- Observation of the updated identity itself, in closed form (all three
touched lists in range). -/
theorem update_obs_self (g : Gym) (pid : ℕ) (ex : String) (a : ℚ)
    (hsq : pid < g.squat_count.length) (hpu : pid < g.pushup_count.length)
    (hst : pid < g.stage.length) :
    obs (update_stage_and_count g pid ex a) pid =
      if a < g.down_angle then
        { squat := if g.stage.getD pid "-" = "up" ∧ ex = "squat" then
            g.squat_count.getD pid 0 + 1 else g.squat_count.getD pid 0
          pushup := if g.stage.getD pid "-" = "up" ∧ ex = "pushup" then
            g.pushup_count.getD pid 0 + 1 else g.pushup_count.getD pid 0
          ang := g.angle.getD pid 0
          stg := "down"
          exv := g.exercise.getD pid none }
      else if a > g.up_angle then
        { squat := g.squat_count.getD pid 0
          pushup := g.pushup_count.getD pid 0
          ang := g.angle.getD pid 0
          stg := "up"
          exv := g.exercise.getD pid none }
      else obs g pid := by
  by_cases h1 : a < g.down_angle
  · rw [if_pos h1]
    unfold obs
    rw [PersonObs.mk.injEq]
    refine ⟨?_, ?_, ?_, ?_, ?_⟩
    · rw [update_squat_field]
      by_cases hc : g.stage.getD pid "-" = "up" ∧ ex = "squat"
      · rw [if_pos ⟨h1, hc.1, hc.2⟩, if_pos hc]
        exact getD_set_self _ _ _ _ hsq
      · rw [if_neg (fun hh => hc ⟨hh.2.1, hh.2.2⟩), if_neg hc]
    · rw [update_pushup_field]
      by_cases hc : g.stage.getD pid "-" = "up" ∧ ex = "pushup"
      · rw [if_pos ⟨h1, hc.1, hc.2⟩, if_pos hc]
        exact getD_set_self _ _ _ _ hpu
      · rw [if_neg (fun hh => hc ⟨hh.2.1, hh.2.2⟩), if_neg hc]
    · rw [show (update_stage_and_count g pid ex a).angle = g.angle from by rw [update_eq]]
    · rw [update_stage_field, if_pos h1]
      exact getD_set_self _ _ _ _ hst
    · rw [show (update_stage_and_count g pid ex a).exercise = g.exercise from by
        rw [update_eq]]
  · rw [if_neg h1]
    by_cases h2 : a > g.up_angle
    · rw [if_pos h2]
      unfold obs
      rw [PersonObs.mk.injEq]
      refine ⟨?_, ?_, ?_, ?_, ?_⟩
      · rw [update_squat_field, if_neg (fun hh => h1 hh.1)]
      · rw [update_pushup_field, if_neg (fun hh => h1 hh.1)]
      · rw [show (update_stage_and_count g pid ex a).angle = g.angle from by rw [update_eq]]
      · rw [update_stage_field, if_neg h1, if_pos h2]
        exact getD_set_self _ _ _ _ hst
      · rw [show (update_stage_and_count g pid ex a).exercise = g.exercise from by
          rw [update_eq]]
    · rw [if_neg h2]
      have hid : update_stage_and_count g pid ex a = g := by
        rw [update_eq]
        simp [h1, h2]
      rw [hid]

/-- The per-person step maps its own identity's observation exactly as
`stepObs` does (for a well-formed state). -/
theorem process_person_obs_self (est : Kpt → Kpt → Kpt → ℚ) (g : Gym)
    (e : ℕ × List Kpt) (hwf : wf g) :
    obs (process_person est g e) e.1
      = stepObs g.up_angle g.down_angle (obs g e.1) e.2 est := by
  obtain ⟨w1, w2, w3, w4⟩ := hwf
  rcases hdet : detect_exercise e.2 with _ | ex
  · rw [process_person_none est g e hdet, initialize_obs]
    unfold stepObs
    rw [hdet]
  · have hLsq : e.1 < (initialize_person g e.1).squat_count.length := by
      rw [initialize_person_eq]
      simp only [pad, List.length_append, List.length_replicate]
      omega
    have hLpu : e.1 < (initialize_person g e.1).pushup_count.length := by
      rw [initialize_person_eq]
      simp only [pad, List.length_append, List.length_replicate]
      omega
    have hLst : e.1 < (initialize_person g e.1).stage.length := by
      rw [initialize_person_eq]
      simp only [pad, List.length_append, List.length_replicate]
      omega
    have hLan : e.1 < (initialize_person g e.1).angle.length := by
      rw [initialize_person_eq]
      simp only [pad, List.length_append, List.length_replicate]
      omega
    have hLex : e.1 < (initialize_person g e.1).exercise.length := by
      rw [initialize_person_eq]
      simp only [pad, List.length_append, List.length_replicate]
      omega
    have hq : (initialize_person g e.1).squat_count.getD e.1 0
        = g.squat_count.getD e.1 0 :=
      congrArg PersonObs.squat (initialize_obs g e.1 e.1)
    have hp : (initialize_person g e.1).pushup_count.getD e.1 0
        = g.pushup_count.getD e.1 0 :=
      congrArg PersonObs.pushup (initialize_obs g e.1 e.1)
    have hs : (initialize_person g e.1).stage.getD e.1 "-"
        = g.stage.getD e.1 "-" :=
      congrArg PersonObs.stg (initialize_obs g e.1 e.1)
    have hx : ((initialize_person g e.1).exercise.set e.1 (some ex)).getD e.1 none
        = some ex := getD_set_self _ _ _ _ hLex
    have ha : ((initialize_person g e.1).angle.set e.1 (angle_of est e.2 ex)).getD e.1 0
        = angle_of est e.2 ex := getD_set_self _ _ _ _ hLan
    have hdw : (initialize_person g e.1).down_angle = g.down_angle := by
      rw [initialize_person_eq]
      rfl
    have hu : (initialize_person g e.1).up_angle = g.up_angle := by
      rw [initialize_person_eq]
      rfl
    rw [process_person_some' est g e ex hdet]
    rw [update_obs_self (write_prep (initialize_person g e.1) e.1 ex (angle_of est e.2 ex))
      e.1 ex (angle_of est e.2 ex)
      (by rw [write_prep_squat]; exact hLsq)
      (by rw [write_prep_pushup]; exact hLpu)
      (by rw [write_prep_stage]; exact hLst)]
    unfold stepObs
    rw [hdet]
    dsimp only
    simp only [obs, write_prep_squat, write_prep_pushup, write_prep_stage,
      write_prep_angle, write_prep_exercise, write_prep_up, write_prep_down]
    rw [hq, hp, hs, hx, ha, hdw, hu]

/-- Lists agreeing in length and in every `getD` observation are equal. -/
theorem list_eq_of_getD {α : Type _} (l1 l2 : List α) (d : α)
    (hl : l1.length = l2.length) (h : ∀ i, l1.getD i d = l2.getD i d) : l1 = l2 := by
  apply List.ext_getElem hl
  intro i h1 h2
  have hi := h i
  rwa [List.getD_eq_getElem _ _ h1, List.getD_eq_getElem _ _ h2] at hi

/-- Two gym states with the same list lengths, the same thresholds and the
same observation of every identity are equal. -/
theorem gym_eq_of_obs (g1 g2 : Gym)
    (h1 : g1.squat_count.length = g2.squat_count.length)
    (h2 : g1.pushup_count.length = g2.pushup_count.length)
    (h3 : g1.angle.length = g2.angle.length)
    (h4 : g1.stage.length = g2.stage.length)
    (h5 : g1.exercise.length = g2.exercise.length)
    (hu : g1.up_angle = g2.up_angle) (hd : g1.down_angle = g2.down_angle)
    (hobs : ∀ i, obs g1 i = obs g2 i) : g1 = g2 := by
  obtain ⟨s1, p1, a1, t1, x1, u1, d1⟩ := g1
  obtain ⟨s2, p2, a2, t2, x2, u2, d2⟩ := g2
  simp only [Gym.mk.injEq]
  refine ⟨?_, ?_, ?_, ?_, ?_, hu, hd⟩
  · exact list_eq_of_getD s1 s2 0 h1 (fun i => congrArg PersonObs.squat (hobs i))
  · exact list_eq_of_getD p1 p2 0 h2 (fun i => congrArg PersonObs.pushup (hobs i))
  · exact list_eq_of_getD a1 a2 0 h3 (fun i => congrArg PersonObs.ang (hobs i))
  · exact list_eq_of_getD t1 t2 "-" h4 (fun i => congrArg PersonObs.stg (hobs i))
  · exact list_eq_of_getD x1 x2 none h5 (fun i => congrArg PersonObs.exv (hobs i))

/-- Per-person steps for two distinct identities commute. -/
theorem process_person_comm (est : Kpt → Kpt → Kpt → ℚ) (g : Gym)
    (e1 e2 : ℕ × List Kpt) (hwf : wf g) (hne : e1.1 ≠ e2.1) :
    process_person est (process_person est g e1) e2
      = process_person est (process_person est g e2) e1 := by
  have hwf1 := wf_process_person est g e1 hwf
  have hwf2 := wf_process_person est g e2 hwf
  apply gym_eq_of_obs
  · rw [(process_person_lengths est (process_person est g e1) e2).1,
      (process_person_lengths est g e1).1,
      (process_person_lengths est (process_person est g e2) e1).1,
      (process_person_lengths est g e2).1]
    omega
  · rw [(process_person_lengths est (process_person est g e1) e2).2.1,
      (process_person_lengths est g e1).2.1, (process_person_lengths est g e1).1,
      (process_person_lengths est (process_person est g e2) e1).2.1,
      (process_person_lengths est g e2).2.1, (process_person_lengths est g e2).1]
    omega
  · rw [(process_person_lengths est (process_person est g e1) e2).2.2.1,
      (process_person_lengths est g e1).2.2.1, (process_person_lengths est g e1).1,
      (process_person_lengths est (process_person est g e2) e1).2.2.1,
      (process_person_lengths est g e2).2.2.1, (process_person_lengths est g e2).1]
    omega
  · rw [(process_person_lengths est (process_person est g e1) e2).2.2.2.1,
      (process_person_lengths est g e1).2.2.2.1, (process_person_lengths est g e1).1,
      (process_person_lengths est (process_person est g e2) e1).2.2.2.1,
      (process_person_lengths est g e2).2.2.2.1, (process_person_lengths est g e2).1]
    omega
  · rw [(process_person_lengths est (process_person est g e1) e2).2.2.2.2,
      (process_person_lengths est g e1).2.2.2.2, (process_person_lengths est g e1).1,
      (process_person_lengths est (process_person est g e2) e1).2.2.2.2,
      (process_person_lengths est g e2).2.2.2.2, (process_person_lengths est g e2).1]
    omega
  · simp only [process_person_up_angle]
  · simp only [process_person_down_angle]
  · intro i
    by_cases hi1 : i = e1.1
    · subst hi1
      rw [process_person_obs_ne est (process_person est g e1) e2 e1.1 hne,
        process_person_obs_self est g e1 hwf,
        process_person_obs_self est (process_person est g e2) e1 hwf2,
        process_person_up_angle, process_person_down_angle,
        process_person_obs_ne est g e2 e1.1 hne]
    · by_cases hi2 : i = e2.1
      · subst hi2
        rw [process_person_obs_self est (process_person est g e1) e2 hwf1,
          process_person_up_angle, process_person_down_angle,
          process_person_obs_ne est g e1 e2.1 (fun he => hne he.symm),
          process_person_obs_ne est (process_person est g e2) e1 e2.1
            (fun he => hne he.symm),
          process_person_obs_self est g e2 hwf]
      · rw [process_person_obs_ne est (process_person est g e1) e2 i hi2,
          process_person_obs_ne est g e1 i hi1,
          process_person_obs_ne est (process_person est g e2) e1 i hi1,
          process_person_obs_ne est g e2 i hi2]

/-- Folding the per-person step over any two permuted lists of entries with
pairwise distinct identities gives the same state. -/
theorem foldl_pp_perm (est : Kpt → Kpt → Kpt → ℚ) {l1 l2 : List (ℕ × List Kpt)}
    (p : l1.Perm l2) :
    ∀ g : Gym, wf g → (l1.map Prod.fst).Nodup →
      l1.foldl (process_person est) g = l2.foldl (process_person est) g := by
  induction p using List.Perm.recOnSwap' with
  | nil => exact fun g _ _ => rfl
  | cons x h ih =>
    intro g hwf hnd
    simp only [List.foldl_cons]
    refine ih (process_person est g x) (wf_process_person est g x hwf) ?_
    rw [List.map_cons] at hnd
    exact hnd.of_cons
  | swap' x y h ih =>
    intro g hwf hnd
    simp only [List.foldl_cons]
    have hxy : y.1 ≠ x.1 := by
      rw [List.map_cons, List.map_cons, List.nodup_cons] at hnd
      intro he
      exact hnd.1 (by rw [he]; exact List.mem_cons_self _ _)
    rw [process_person_comm est g y x hwf hxy]
    refine ih (process_person est (process_person est g x) y)
      (wf_process_person est _ y (wf_process_person est g x hwf)) ?_
    rw [List.map_cons, List.map_cons, List.nodup_cons, List.nodup_cons] at hnd
    exact hnd.2.2
  | trans h1 h2 ih1 ih2 =>
    intro g hwf hnd
    rw [ih1 g hwf hnd]
    exact ih2 g hwf (((h1.map Prod.fst).nodup_iff).mp hnd)

/-- C9: a per-person step changes no observable field of any other identity,
and consequently processing a frame's entries (with pairwise distinct
identities, from a well-formed state) in any order yields the same final
registry state. -/
theorem identity_independence_and_order_invariance :
    (∀ (est : Kpt → Kpt → Kpt → ℚ) (g : Gym) (e : ℕ × List Kpt) (q : ℕ),
      q ≠ e.1 → obs (process_person est g e) q = obs g q) ∧
    (∀ (est : Kpt → Kpt → Kpt → ℚ) (g : Gym) (l1 l2 : List (ℕ × List Kpt)),
      wf g → l1.Perm l2 → (l1.map Prod.fst).Nodup →
      (process est g l1).1 = (process est g l2).1) :=
  ⟨fun est g e q hq => process_person_obs_ne est g e q hq,
   fun est g l1 l2 hwf hp hnd => foldl_pp_perm est hp g hwf hnd⟩

/-- Witness for C9: processing identity 1 leaves identity 0's observation
alone, and a two-person frame processed in either order ends in the same
state. -/
theorem identity_independence_and_order_invariance_witness :
    obs (process_person est0 gW (1, [])) 0 = obs gW 0 ∧
    (process est0 mkGym [(0, []), (1, [])]).1
      = (process est0 mkGym [(1, []), (0, [])]).1 :=
  ⟨identity_independence_and_order_invariance.1 est0 gW (1, []) 0 (by decide),
   identity_independence_and_order_invariance.2 est0 mkGym [(0, []), (1, [])]
     [(1, []), (0, [])] (by decide) (List.Perm.swap _ _ _) (by decide)⟩

end AIGym
